import Mathlib

/-!
Shallow embedding of the SSE response incremental parser
(`src/lib/SSEResponseParser.ts`).

Bytes are modelled as `Nat`, byte strings as `List Nat`.  A `Message` is an
insertion-ordered association list, mirroring the key order of a plain
JavaScript object (assigning to an existing key keeps its position, a new
key is appended at the end).

The generator-based parser states `fieldStart`, `fieldName`, `fieldValue`,
`skipComment` and `skipLFAfterCR` are embedded as an inductive state type
`PState` together with one function `feed` that consumes one chunk of
bytes, returning the emitted messages, the suspended state and the
in-progress message.  `feed` mirrors the inner loop of `getMessages`
driving the state generators.

`collectUntilChar` scans fragment-wise: within one offered chunk the
collect loop runs exactly one iteration (up to the terminator or to the
chunk's end), and with `skipLeadingSpace` it tests `buffer === ''` and
strips one leading space per iteration, i.e. once per fragment.  `feed`
processes bytes one at a time, so this per-fragment strip test is carried
as a `strip` flag on the `fieldValue` state: the flag is set exactly when
a fragment begins with an empty buffer (on entry after the colon, and on
re-suspension, where it is re-normalised to `buf.isEmpty` because the
source re-evaluates `buffer === ''` at the start of the next fragment),
and it is cleared after the fragment's first byte has been handled.
The streaming UTF-8 decoder is modelled at the byte level: `decode(...,
{stream:true})` calls followed by the final flush concatenate to the
decoded text of the concatenated bytes for well-formed UTF-8 input, so
the buffer holds bytes and `buffer === ''` is `buf.isEmpty`.
-/

namespace SSE

/-- A field name or field value: a byte string. -/
abbrev Bytes := List Nat

/-- One SSE message: an insertion-ordered mapping from field name to value,
mirroring a plain JavaScript object used as a dictionary. -/
abbrev Message := List (Bytes × Bytes)

/-- `':'.charCodeAt(0)` -/
def COLON : Nat := 58

/-- carriage return `0x0D` -/
def CR : Nat := 13

/-- line feed `0x0A` -/
def LF : Nat := 10

/-- space `0x20` -/
def SPACE : Nat := 32

/-- `notNameChar` from the source: a byte ending a field name. -/
def notNameChar (ch : Nat) : Bool := ch == COLON || ch == CR || ch == LF

/-- `lineEndChar` from the source: CR or LF. -/
def lineEndChar (ch : Nat) : Bool := ch == CR || ch == LF

/-- Lookup of a field in a message (`ctx.message[fieldName]`). -/
def getField : Message → Bytes → Option Bytes
  | [], _ => none
  | (k, v) :: rest, key => if k = key then some v else getField rest key

/-- Assignment `ctx.message[key] = val` on a plain JavaScript object:
an existing key keeps its position, a new key is appended. -/
def setField : Message → Bytes → Bytes → Message
  | [], key, val => [(key, val)]
  | (k, v) :: rest, key, val =>
      if k = key then (k, val) :: rest else (k, v) :: setField rest key val

/-- `Object.keys` of a message, in insertion order. -/
def msgKeys (m : Message) : List Bytes := m.map Prod.fst

/-- The byte string `"data"`. -/
def dataName : Bytes := [100, 97, 116, 97]

/-- The field-value assignment performed by the `fieldValue` state: for the
field name `data` the new value is the previous one (empty if absent)
concatenated with the parsed value and a trailing `\n`; every other field
is simply overwritten. -/
def assignField (m : Message) (name value : Bytes) : Message :=
  if name = dataName then
    let previous := (getField m name).getD []
    setField m name (previous ++ value ++ [LF])
  else
    setField m name value

/-- The parser states.  `skipLF` is `skipLFAfterCR(CR, fieldStart)`: every
call site of `skipLFAfterCR` passes `fieldStart` as the next state, and for
an LF terminator `skipLFAfterCR` returns `fieldStart` itself, so only the
CR case is a state of its own.  `fieldValue` carries, besides the field
name and the collected buffer, the pending `skipLeadingSpace` test of
`collectUntilChar` for the current fragment (see the module docstring). -/
inductive PState
  | fieldStart
  | fieldName (buf : Bytes)
  | fieldValue (name : Bytes) (buf : Bytes) (strip : Bool)
  | skipComment
  | skipLF
deriving DecidableEq, Repr

/-- Rank used in the termination measure of `feed`: transitions that do not
consume a byte strictly decrease the rank. -/
def rank : PState → Nat
  | .skipComment => 3
  | .skipLF => 2
  | .fieldStart => 1
  | _ => 0

/-- Feed one chunk of bytes to the parser, starting in state `s` with
in-progress message `msg`.  Returns the messages emitted while consuming
this chunk (already filtered to be non-empty, exactly as `getMessages`
drops empty messages), the suspended state and the in-progress message at
the chunk's end.

Each arm mirrors one generator of the source:
* `fieldStart` inspects one byte: `:` starts a comment, CR/LF emits the
  current message (if non-empty) and resets it, anything else re-offers the
  byte to `fieldName`;
* `fieldName` collects bytes up to a `notNameChar`; a line end stores the
  name with an empty value, a colon dispatches to `fieldValue` with an
  empty buffer and the strip test armed;
* `fieldValue` collects bytes up to a line end; while the strip flag is
  armed the fragment's first byte is dropped when it is a space
  (`collectUntilChar` with `skipLeadingSpace`); on suspension the flag is
  re-normalised to `buf.isEmpty` because the source re-evaluates
  `buffer === ''` at the start of the next fragment;
* `skipComment` discards bytes up to a line end and leaves the terminator
  unconsumed, handing it to `skipLFAfterCR(term, fieldStart)` exactly as
  the source does;
* `skipLF` consumes a single LF if present, else re-offers the byte to
  `fieldStart`. -/
def feed (s : PState) (msg : Message) (input : List Nat) :
    List Message × PState × Message :=
  match s, input with
  | .fieldValue name buf _, [] => ([], .fieldValue name buf buf.isEmpty, msg)
  | s, [] => ([], s, msg)
  | .fieldStart, ch :: rest =>
      if ch == COLON then feed .skipComment msg rest
      else if lineEndChar ch then
        let out := if msg = [] then [] else [msg]
        let next := if ch == CR then PState.skipLF else PState.fieldStart
        let r := feed next [] rest
        (out ++ r.1, r.2)
      else
        feed (.fieldName []) msg (ch :: rest)
  | .fieldName buf, ch :: rest =>
      if ch == COLON then feed (.fieldValue buf [] true) msg rest
      else if lineEndChar ch then
        let next := if ch == CR then PState.skipLF else PState.fieldStart
        feed next (setField msg buf []) rest
      else
        feed (.fieldName (buf ++ [ch])) msg rest
  | .fieldValue name buf strip, ch :: rest =>
      if lineEndChar ch then
        let next := if ch == CR then PState.skipLF else PState.fieldStart
        feed next (assignField msg name buf) rest
      else if strip && ch == SPACE then
        feed (.fieldValue name buf false) msg rest
      else
        feed (.fieldValue name (buf ++ [ch]) false) msg rest
  | .skipComment, ch :: rest =>
      if lineEndChar ch then
        if ch == LF then feed .fieldStart msg (ch :: rest)
        else feed .skipLF msg (ch :: rest)
      else
        feed .skipComment msg rest
  | .skipLF, ch :: rest =>
      if ch == LF then feed .fieldStart msg rest
      else feed .fieldStart msg (ch :: rest)
termination_by 4 * input.length + rank s
decreasing_by
  all_goals simp only [rank, List.length_cons]
  all_goals try omega
  all_goals split
  all_goals omega

/-- Drive the parser over a list of chunks, threading the state and the
in-progress message, collecting emitted messages in order: the chunk loop
of `getMessages` (empty chunks are skipped by the source; `feed` on an
empty chunk is a no-op, so they need no special case). -/
def feedChunks (s : PState) (msg : Message) : List (List Nat) → List Message × PState × Message
  | [] => ([], s, msg)
  | c :: cs =>
      let r := feed s msg c
      let r' := feedChunks r.2.1 r.2.2 cs
      (r.1 ++ r'.1, r'.2)

/-- The terminal outcome of a session (`FinishReason` in the source). -/
inductive FinishReason
  | SERVER_CLOSED
  | CLIENT_CLOSED
  | THROWN
  | HTTP_STATUS
deriving DecidableEq, Repr

/-- `getMessages`, driven to completion without a client close and without
transport errors: the byte source delivers `chunks` and then reports
end-of-stream, upon which the loop exits and the session finishes with
`SERVER_CLOSED`.  The in-progress message at end-of-stream is discarded. -/
def getMessages (chunks : List (List Nat)) : List Message × FinishReason :=
  ((feedChunks .fieldStart [] chunks).1, .SERVER_CLOSED)

/-- The session when the consumer calls `close()` right after receiving the
`k`-th message (`k ≥ 1`).  At that moment `getMessages` is suspended at the
`yield` inside the chunk loop; the next pull resumes and finishes the
current chunk (its remaining messages are still yielded one by one), and
the `!this.clientClosed` test of the outer loop then stops the iteration
with `CLIENT_CLOSED`.  `cnt` counts the messages yielded by previous
chunks.  If the stream ends before `k` messages were produced, the close
never happens and the session ends with `SERVER_CLOSED`. -/
def runCloseAux (k : Nat) : Nat → PState → Message → List (List Nat) → List Message × FinishReason
  | _, _, _, [] => ([], .SERVER_CLOSED)
  | cnt, s, msg, c :: cs =>
      let r := feed s msg c
      if k ≤ cnt + r.1.length then (r.1, .CLIENT_CLOSED)
      else
        let r' := runCloseAux k (cnt + r.1.length) r.2.1 r.2.2 cs
        (r.1 ++ r'.1, r'.2)

/-- Messages surfaced and terminal result of a session over `chunks` in
which the consumer calls `close()` right after receiving the `k`-th
message, then keeps pulling.  `k = 0` means `close()` is called before the
first pull: the loop guard `!this.clientClosed` fails before any read and
the session yields nothing, finishing with `CLIENT_CLOSED`. -/
def getMessagesWithClose (chunks : List (List Nat)) (k : Nat) : List Message × FinishReason :=
  if k = 0 then ([], .CLIENT_CLOSED)
  else runCloseAux k 0 .fieldStart [] chunks

/-- ASCII string to bytes, for readable concrete inputs (all concrete
inputs in this file are ASCII, where code points and UTF-8 bytes agree). -/
def bytes (s : String) : List Nat := s.data.map Char.toNat

/-- A well-formed field name: non-empty and free of `:`, CR and LF. -/
abbrev wfName (v : Bytes) : Prop := v ≠ [] ∧ ∀ b ∈ v, notNameChar b = false

/-- A well-formed field value: free of CR and LF. -/
abbrev wfValue (v : Bytes) : Prop := ∀ b ∈ v, lineEndChar b = false

/-- The wire form `name: value` of one field, ended by `term` (one of
`[LF]`, `[CR]`, `[CR, LF]`).  The space after the colon is the one the
parser strips. -/
def lineOf (term : List Nat) (f : Bytes × Bytes) : List Nat :=
  f.1 ++ [COLON, SPACE] ++ f.2 ++ term

/-- The lines of a record, without the final blank line. -/
def bodyOf (term : List Nat) (fields : List (Bytes × Bytes)) : List Nat :=
  (fields.map (lineOf term)).flatten

/-- A full record: its field lines followed by a blank line. -/
def recordOf (term : List Nat) (fields : List (Bytes × Bytes)) : List Nat :=
  bodyOf term fields ++ term

/-- The message that the declared fields of a record produce: each field is
applied in order with the parser's assignment rule. -/
def mkMessage (fields : List (Bytes × Bytes)) : Message :=
  fields.foldl (fun m f => assignField m f.1 f.2) []

/-- Append a key if it is not present yet. -/
def addKey (ks : List Bytes) (k : Bytes) : List Bytes :=
  if k ∈ ks then ks else ks ++ [k]

/-- The byte stream of a single record `name ++ ":" ++ value` (no space
after the colon) followed by a blank line, LF line endings. -/
def oneRecord (n w : Bytes) : List Nat := n ++ [COLON] ++ w ++ [LF, LF]

/-- The single message produced by `oneRecord n w`. -/
def oneMsg (n w : Bytes) : Message := assignField [] n w

/-- A suspension point inside `oneRecord n w`: how much of the name or of
the value has been consumed, or the position after the first line's LF, or
the end of the stream. -/
inductive Pos5 where
  | name (n1 n2 : Bytes)
  | value (w1 w2 : Bytes)
  | afterLine1
  | atEnd

/-- Validity of a position w.r.t. the record `oneRecord n w`. -/
def okPos (n w : Bytes) : Pos5 → Prop
  | .name n1 n2 => n1 ++ n2 = n
  | .value w1 w2 => w1 ++ w2 = w
  | _ => True

/-- The suspended parser state at a position (the `fieldValue` strip flag
is re-normalised to `buf.isEmpty` at every suspension, as in `feed`). -/
def stPos (n : Bytes) : Pos5 → PState
  | .name [] _ => .fieldStart
  | .name n1 _ => .fieldName n1
  | .value w1 _ => .fieldValue n w1 w1.isEmpty
  | .afterLine1 => .fieldStart
  | .atEnd => .fieldStart

/-- The in-progress message at a position. -/
def msPos (n w : Bytes) : Pos5 → Message
  | .afterLine1 => oneMsg n w
  | _ => []

/-- The bytes of `oneRecord n w` not yet consumed at a position. -/
def sfxPos (w : Bytes) : Pos5 → List Nat
  | .name _ n2 => n2 ++ [COLON] ++ w ++ [LF, LF]
  | .value _ w2 => w2 ++ [LF, LF]
  | .afterLine1 => [LF]
  | .atEnd => []

/-- `feed` for the repository's other parser variant (the compiled
near-duplicate `src/unnamed/part_002`): its `fieldStart`, `fieldName`,
`skipComment`, `skipLFAfterCR`, `collectUntilChar` and driver loop are
the ones embedded in `feed`, but its `fieldValue` calls
`collectUntilChar(ctx, notNameChar, true)`, so the value scan stops at a
`:` as well as at CR/LF, and the terminator is handed to
`skipLFAfterCR(endingChar, fieldStart)`, which returns the LF-skipping
state for every non-LF terminator (including `:`).  Only the
`fieldValue` arm differs from `feed`. -/
def feedV (s : PState) (msg : Message) (input : List Nat) :
    List Message × PState × Message :=
  match s, input with
  | .fieldValue name buf _, [] => ([], .fieldValue name buf buf.isEmpty, msg)
  | s, [] => ([], s, msg)
  | .fieldStart, ch :: rest =>
      if ch == COLON then feedV .skipComment msg rest
      else if lineEndChar ch then
        let out := if msg = [] then [] else [msg]
        let next := if ch == CR then PState.skipLF else PState.fieldStart
        let r := feedV next [] rest
        (out ++ r.1, r.2)
      else
        feedV (.fieldName []) msg (ch :: rest)
  | .fieldName buf, ch :: rest =>
      if ch == COLON then feedV (.fieldValue buf [] true) msg rest
      else if lineEndChar ch then
        let next := if ch == CR then PState.skipLF else PState.fieldStart
        feedV next (setField msg buf []) rest
      else
        feedV (.fieldName (buf ++ [ch])) msg rest
  | .fieldValue name buf strip, ch :: rest =>
      if notNameChar ch then
        let next := if ch == LF then PState.fieldStart else PState.skipLF
        feedV next (assignField msg name buf) rest
      else if strip && ch == SPACE then
        feedV (.fieldValue name buf false) msg rest
      else
        feedV (.fieldValue name (buf ++ [ch]) false) msg rest
  | .skipComment, ch :: rest =>
      if lineEndChar ch then
        if ch == LF then feedV .fieldStart msg (ch :: rest)
        else feedV .skipLF msg (ch :: rest)
      else
        feedV .skipComment msg rest
  | .skipLF, ch :: rest =>
      if ch == LF then feedV .fieldStart msg rest
      else feedV .fieldStart msg (ch :: rest)
termination_by 4 * input.length + rank s
decreasing_by
  all_goals simp only [rank, List.length_cons]
  all_goals try omega
  all_goals split
  all_goals omega

/-- The chunk loop of the `part_002` variant (identical driver). -/
def feedChunksV (s : PState) (msg : Message) : List (List Nat) → List Message × PState × Message
  | [] => ([], s, msg)
  | c :: cs =>
      let r := feedV s msg c
      let r' := feedChunksV r.2.1 r.2.2 cs
      (r.1 ++ r'.1, r'.2)

/-- `getMessages` of the `part_002` variant, driven to end-of-stream. -/
def getMessagesV (chunks : List (List Nat)) : List Message × FinishReason :=
  ((feedChunksV .fieldStart [] chunks).1, .SERVER_CLOSED)

/-- All keys of a message are non-empty. -/
def goodKeys (m : Message) : Prop := ∀ k ∈ msgKeys m, k ≠ []

/-- States whose pending name is non-empty (what a suspension guarantees). -/
def goodState : PState → Prop
  | .fieldName buf => buf ≠ []
  | .fieldValue name _ _ => name ≠ []
  | _ => True

/-- Precondition of `feed`: a `fieldName` state with an empty buffer is
allowed only if the first input byte is a name byte (which is how the
`fieldStart` dispatch enters it). -/
def nameOK : PState → List Nat → Prop
  | .fieldName buf, input => buf ≠ [] ∨ ∃ ch rest, input = ch :: rest ∧ notNameChar ch = false
  | .fieldValue name _ _, _ => name ≠ []
  | _, _ => True

/-! ### Byte classification -/

theorem notNameChar_false {b : Nat} (h : notNameChar b = false) :
    (b == COLON) = false ∧ (b == CR) = false ∧ (b == LF) = false := by
  simp only [notNameChar, Bool.or_eq_false_iff] at h
  exact ⟨h.1.1, h.1.2, h.2⟩

theorem lineEndChar_false {b : Nat} (h : lineEndChar b = false) :
    (b == CR) = false ∧ (b == LF) = false := by
  simp only [lineEndChar, Bool.or_eq_false_iff] at h
  exact h

theorem lineEnd_of_notName {b : Nat} (h : notNameChar b = false) :
    lineEndChar b = false := by
  obtain ⟨-, h2, h3⟩ := notNameChar_false h
  simp [lineEndChar, h2, h3]

/-! ### Scanning lemmas for `feed` -/

theorem feed_name_collect (c : Bytes) (hc : ∀ b ∈ c, notNameChar b = false) :
    ∀ (buf : Bytes) (msg : Message) (rest : List Nat),
      feed (.fieldName buf) msg (c ++ rest) = feed (.fieldName (buf ++ c)) msg rest := by
  induction c with
  | nil => intro buf msg rest; simp
  | cons b c ih =>
      intro buf msg rest
      obtain ⟨h1, h2, h3⟩ := notNameChar_false (hc b (by simp))
      have hle : lineEndChar b = false := by simp [lineEndChar, h2, h3]
      rw [List.cons_append]
      rw [show feed (.fieldName buf) msg (b :: (c ++ rest)) =
            feed (.fieldName (buf ++ [b])) msg (c ++ rest) by simp [feed, h1, hle]]
      rw [ih (fun x hx => hc x (by simp [hx])) (buf ++ [b]) msg rest]
      simp

theorem feed_value_collect (c : Bytes) (hc : ∀ b ∈ c, lineEndChar b = false) :
    ∀ (name buf : Bytes) (msg : Message) (rest : List Nat),
      feed (.fieldValue name buf false) msg (c ++ rest) =
        feed (.fieldValue name (buf ++ c) false) msg rest := by
  induction c with
  | nil => intro name buf msg rest; simp
  | cons b c ih =>
      intro name buf msg rest
      have hle : lineEndChar b = false := hc b (by simp)
      rw [List.cons_append]
      rw [show feed (.fieldValue name buf false) msg (b :: (c ++ rest)) =
            feed (.fieldValue name (buf ++ [b]) false) msg (c ++ rest) by
          simp [feed, hle]]
      rw [ih (fun x hx => hc x (by simp [hx])) name (buf ++ [b]) msg rest]
      simp

/-- Consuming one well-formed `name: value` line (with one space after the
colon, which the parser strips) performs exactly one field assignment.
For a lone-CR terminator the next byte must exist and not be an LF
(otherwise it would be absorbed as the second half of a CRLF). -/
theorem feed_line (n v : Bytes) (term : List Nat) (msg : Message) (rest : List Nat)
    (hn : wfName n) (hv : wfValue v)
    (hterm : term = [LF] ∨ term = [CR] ∨ term = [CR, LF])
    (hcr : term = [CR] → ∃ b tl, rest = b :: tl ∧ (b == LF) = false) :
    feed .fieldStart msg (lineOf term (n, v) ++ rest) =
      feed .fieldStart (assignField msg n v) rest := by
  obtain ⟨hne, hmem⟩ := hn
  obtain ⟨nh, nt, rfl⟩ : ∃ nh nt, n = nh :: nt := by
    cases n with
    | nil => exact absurd rfl hne
    | cons a l => exact ⟨a, l, rfl⟩
  obtain ⟨h1, h2, h3⟩ := notNameChar_false (hmem nh (by simp))
  have hle : lineEndChar nh = false := by simp [lineEndChar, h2, h3]
  have hshape : lineOf term (nh :: nt, v) ++ rest =
      (nh :: nt) ++ (COLON :: SPACE :: (v ++ (term ++ rest))) := by
    simp [lineOf]
  rw [hshape]
  rw [List.cons_append]
  rw [show feed .fieldStart msg (nh :: (nt ++ (COLON :: SPACE :: (v ++ (term ++ rest))))) =
        feed (.fieldName []) msg (nh :: (nt ++ (COLON :: SPACE :: (v ++ (term ++ rest))))) by
      simp [feed, h1, hle]]
  rw [← List.cons_append]
  rw [feed_name_collect (nh :: nt) hmem [] msg _]
  rw [show feed (.fieldName ([] ++ nh :: nt)) msg (COLON :: SPACE :: (v ++ (term ++ rest))) =
        feed (.fieldValue (nh :: nt) [] true) msg (SPACE :: (v ++ (term ++ rest))) by
      simp [feed]]
  rw [show feed (.fieldValue (nh :: nt) [] true) msg (SPACE :: (v ++ (term ++ rest))) =
        feed (.fieldValue (nh :: nt) [] false) msg (v ++ (term ++ rest)) by
      simp [feed, lineEndChar, SPACE, CR, LF]]
  rw [feed_value_collect v hv (nh :: nt) [] msg (term ++ rest)]
  rcases hterm with rfl | rfl | rfl
  · rw [List.cons_append]
    simp [feed, lineEndChar, CR, LF]
  · obtain ⟨b, tl, rfl, hb⟩ := hcr rfl
    rw [List.cons_append]
    rw [show feed (.fieldValue (nh :: nt) ([] ++ v) false) msg (CR :: ([] ++ b :: tl)) =
          feed .skipLF (assignField msg (nh :: nt) ([] ++ v)) (b :: tl) by
        simp [feed, lineEndChar, CR, LF]]
    simp [feed, hb]
  · rw [List.cons_append]
    rw [show feed (.fieldValue (nh :: nt) ([] ++ v) false) msg (CR :: ([LF] ++ rest)) =
          feed .skipLF (assignField msg (nh :: nt) ([] ++ v)) (LF :: rest) by
        simp [feed, lineEndChar, CR, LF]]
    simp [feed]

/-- Consuming the lines of a record folds the assignment rule over its
declared fields. -/
theorem feed_body (term : List Nat)
    (hterm : term = [LF] ∨ term = [CR] ∨ term = [CR, LF]) :
    ∀ (fields : List (Bytes × Bytes)) (msg : Message) (rest : List Nat),
      (∀ f ∈ fields, wfName f.1 ∧ wfValue f.2) →
      (term = [CR] → ∃ b tl, rest = b :: tl ∧ (b == LF) = false) →
      feed .fieldStart msg (bodyOf term fields ++ rest) =
        feed .fieldStart (fields.foldl (fun m f => assignField m f.1 f.2) msg) rest := by
  intro fields
  induction fields with
  | nil => intro msg rest _ _; simp [bodyOf]
  | cons f fs ih =>
      intro msg rest hf hcr
      obtain ⟨hn, hv⟩ := hf f (by simp)
      have hcr2 : term = [CR] → ∃ b tl, bodyOf term fs ++ rest = b :: tl ∧ (b == LF) = false := by
        intro htermcr
        cases fs with
        | nil => simpa [bodyOf] using hcr htermcr
        | cons g gs =>
            obtain ⟨⟨hgne, hgmem⟩, -⟩ := hf g (by simp)
            obtain ⟨gh, gt, hg⟩ : ∃ gh gt, g.1 = gh :: gt := by
              cases hgg : g.1 with
              | nil => exact absurd hgg hgne
              | cons a l => exact ⟨a, l, rfl⟩
            refine ⟨gh, gt ++ [COLON, SPACE] ++ g.2 ++ term ++ (bodyOf term gs ++ rest), ?_, ?_⟩
            · simp [bodyOf, lineOf, hg]
            · exact (notNameChar_false (hgmem gh (by simp [hg]))).2.2
      have hstep : feed .fieldStart msg (bodyOf term (f :: fs) ++ rest) =
          feed .fieldStart (assignField msg f.1 f.2) (bodyOf term fs ++ rest) := by
        have hl := feed_line f.1 f.2 term msg (bodyOf term fs ++ rest) hn hv hterm hcr2
        simpa [bodyOf, List.append_assoc] using hl
      rw [hstep, ih (assignField msg f.1 f.2) rest (fun g hg => hf g (by simp [hg])) hcr]
      simp

/-! ### Message-shape lemmas -/

theorem setField_ne_nil (m : Message) (k v : Bytes) : setField m k v ≠ [] := by
  cases m with
  | nil => simp [setField]
  | cons p rest => cases p with | mk a b => simp only [setField]; split <;> simp

theorem assignField_ne_nil (m : Message) (n v : Bytes) : assignField m n v ≠ [] := by
  unfold assignField; split
  · apply setField_ne_nil
  · apply setField_ne_nil

theorem foldl_assign_ne_nil :
    ∀ (fields : List (Bytes × Bytes)) (m : Message), m ≠ [] →
      fields.foldl (fun m f => assignField m f.1 f.2) m ≠ [] := by
  intro fields
  induction fields with
  | nil => intro m hm; simpa using hm
  | cons f fs ih => intro m _; exact ih (assignField m f.1 f.2) (assignField_ne_nil m f.1 f.2)

theorem mkMessage_ne_nil (fields : List (Bytes × Bytes)) (h : fields ≠ []) :
    mkMessage fields ≠ [] := by
  cases fields with
  | nil => exact absurd rfl h
  | cons f fs =>
      exact foldl_assign_ne_nil fs (assignField [] f.1 f.2) (assignField_ne_nil [] f.1 f.2)

theorem msgKeys_setField (m : Message) (k v : Bytes) :
    msgKeys (setField m k v) = addKey (msgKeys m) k := by
  induction m with
  | nil => simp [setField, msgKeys, addKey]
  | cons p rest ih =>
      cases p with | mk a b =>
      by_cases hak : a = k
      · subst hak; simp [setField, msgKeys, addKey]
      · have ih2 : List.map Prod.fst (setField rest k v) = addKey (List.map Prod.fst rest) k := ih
        simp only [setField, if_neg hak, msgKeys, List.map_cons]
        rw [ih2]
        simp only [addKey, msgKeys]
        by_cases hk : k ∈ List.map Prod.fst rest
        · simp [hk, List.mem_cons, hak, Ne.symm hak]
        · simp [hk, List.mem_cons, Ne.symm hak]

theorem getMessages_single (c : List Nat) :
    getMessages [c] = ((feed .fieldStart [] c).1, .SERVER_CLOSED) := by
  simp [getMessages, feedChunks]

theorem feed_blank_line (msg : Message) (hmsg : msg ≠ []) (term : List Nat)
    (hterm : term = [LF] ∨ term = [CR] ∨ term = [CR, LF]) :
    (feed .fieldStart msg term).1 = [msg] := by
  rcases hterm with rfl | rfl | rfl <;>
    simp [feed, lineEndChar, COLON, CR, LF, hmsg]

/-- A whole record fed as one chunk produces exactly the message obtained
by folding the assignment rule over its declared fields, and the session
then ends with `SERVER_CLOSED`. -/
theorem run_recordOf (term : List Nat) (fields : List (Bytes × Bytes))
    (hterm : term = [LF] ∨ term = [CR] ∨ term = [CR, LF])
    (hf : ∀ f ∈ fields, wfName f.1 ∧ wfValue f.2) (hne : fields ≠ []) :
    getMessages [recordOf term fields] = ([mkMessage fields], .SERVER_CLOSED) := by
  rw [show recordOf term fields = bodyOf term fields ++ term from rfl]
  rw [getMessages_single]
  have hcr : term = [CR] → ∃ b tl, term = b :: tl ∧ (b == LF) = false := by
    intro hc; exact ⟨CR, [], by rw [hc], by decide⟩
  rw [feed_body term hterm fields [] term hf hcr]
  rw [show (fields.foldl (fun m f => assignField m f.1 f.2) []) = mkMessage fields from rfl]
  rw [feed_blank_line (mkMessage fields) (mkMessage_ne_nil fields hne) term hterm]

/-! ### Values produced by small records -/

theorem getField_single (n v : Bytes) : getField [(n, v)] n = some v := by
  simp [getField]

theorem assignField_nil (n v : Bytes) :
    assignField [] n v = [(n, if n = dataName then v ++ [LF] else v)] := by
  unfold assignField
  split
  · rename_i h; simp [getField, setField, h]
  · rename_i h; simp [setField, h]

theorem assignField_again (n w v : Bytes) :
    assignField [(n, w)] n v = [(n, if n = dataName then w ++ v ++ [LF] else v)] := by
  unfold assignField
  split
  · rename_i h; simp [getField, setField, h]
  · rename_i h; simp [setField, h]

theorem mkMessage_two (n v1 v2 : Bytes) :
    mkMessage [(n, v1), (n, v2)] =
      [(n, if n = dataName then v1 ++ [LF] ++ v2 ++ [LF] else v2)] := by
  have h1 : mkMessage [(n, v1), (n, v2)] =
      assignField (assignField [] n v1) n v2 := by
    simp [mkMessage]
  rw [h1, assignField_nil, assignField_again]
  by_cases h : n = dataName <;> simp [h]

/-! ### Claims C2, C3, C6 -/

/-- C3: in a record with two lines of the same field, the `data` field
accumulates (previous value, new value, trailing newline) while every
other field keeps only the second value. -/
theorem claim3_data_accumulation (n v1 v2 : Bytes) (hn : wfName n)
    (h1 : wfValue v1) (h2 : wfValue v2) :
    getMessages [recordOf [LF] [(n, v1), (n, v2)]] =
      ([[(n, if n = dataName then v1 ++ [LF] ++ v2 ++ [LF] else v2)]], .SERVER_CLOSED) := by
  rw [run_recordOf [LF] [(n, v1), (n, v2)] (by simp) ?hf (by simp), mkMessage_two]
  case hf =>
    intro f hfm
    rcases List.mem_cons.mp hfm with rfl | hfm2
    · exact ⟨hn, h1⟩
    · rcases List.mem_cons.mp hfm2 with rfl | hfm3
      · exact ⟨hn, h2⟩
      · simp at hfm3

/-- Witness for C3: `data: first line` and `data: second line` followed by
a blank line yield one Message with `data = "first line\nsecond line\n"`. -/
theorem claim3_witness :
    wfName (bytes "data") ∧ wfValue (bytes "first line") ∧ wfValue (bytes "second line") ∧
    getMessages [recordOf [LF] [(bytes "data", bytes "first line"),
        (bytes "data", bytes "second line")]] =
      ([[(bytes "data", bytes "first line\nsecond line\n")]], .SERVER_CLOSED) := by
  refine ⟨by decide, by decide, by decide, ?_⟩
  rw [claim3_data_accumulation (bytes "data") (bytes "first line") (bytes "second line")
    (by decide) (by decide) (by decide)]
  decide

/-- C6: the message produced by a well-formed record does not depend on
which of the three line-ending conventions (LF, CR, CRLF) terminates its
lines and its closing blank line; a CRLF is one terminator, not a
terminator followed by a blank line. -/
theorem claim6_line_endings (fields : List (Bytes × Bytes)) (term : List Nat)
    (hf : ∀ f ∈ fields, wfName f.1 ∧ wfValue f.2) (hne : fields ≠ [])
    (hterm : term = [LF] ∨ term = [CR] ∨ term = [CR, LF]) :
    getMessages [recordOf term fields] = ([mkMessage fields], .SERVER_CLOSED) := by
  exact run_recordOf term fields hterm hf hne

/-- Witness for C6: the record `id:1`, `data:d1` produces the message
`{id: "1", data: "d1\n"}` with CR endings, and the same with CRLF. -/
theorem claim6_witness :
    (∀ f ∈ [(bytes "id", bytes "1"), (bytes "data", bytes "d1")], wfName f.1 ∧ wfValue f.2) ∧
    getMessages [recordOf [CR] [(bytes "id", bytes "1"), (bytes "data", bytes "d1")]] =
      ([[(bytes "id", bytes "1"), (bytes "data", bytes "d1\n")]], .SERVER_CLOSED) ∧
    getMessages [recordOf [CR, LF] [(bytes "id", bytes "1"), (bytes "data", bytes "d1")]] =
      getMessages [recordOf [CR] [(bytes "id", bytes "1"), (bytes "data", bytes "d1")]] := by
  refine ⟨by decide, ?_, ?_⟩
  · rw [claim6_line_endings [(bytes "id", bytes "1"), (bytes "data", bytes "d1")] [CR]
      (by decide) (by decide) (by simp)]
    decide
  · rw [claim6_line_endings [(bytes "id", bytes "1"), (bytes "data", bytes "d1")] [CR, LF]
      (by decide) (by decide) (by simp),
      claim6_line_endings [(bytes "id", bytes "1"), (bytes "data", bytes "d1")] [CR]
      (by decide) (by decide) (by simp)]

/-! ### Output invariants of `feed` -/

theorem notNameChar_of {b : Nat} (h1 : (b == COLON) = false) (h2 : lineEndChar b = false) :
    notNameChar b = false := by
  obtain ⟨hcr, hlf⟩ := lineEndChar_false h2
  simp [notNameChar, h1, hcr, hlf]

theorem feed_nil_out (s : PState) (msg : Message) : (feed s msg []).1 = [] := by
  cases s <;> simp [feed]

theorem feed_nil_msg (s : PState) (msg : Message) : (feed s msg []).2.2 = msg := by
  cases s <;> simp [feed]

theorem goodKeys_setField (m : Message) (k v : Bytes) (hm : goodKeys m) (hk : k ≠ []) :
    goodKeys (setField m k v) := by
  intro x hx
  rw [msgKeys_setField] at hx
  unfold addKey at hx
  split at hx
  · exact hm x hx
  · rcases List.mem_append.mp hx with h | h
    · exact hm x h
    · rw [List.mem_singleton.mp h]; exact hk

theorem goodKeys_assignField (m : Message) (n v : Bytes) (hm : goodKeys m) (hn : n ≠ []) :
    goodKeys (assignField m n v) := by
  unfold assignField
  split
  · exact goodKeys_setField m n _ hm hn
  · exact goodKeys_setField m n v hm hn

theorem feed_good (s : PState) (msg : Message) (input : List Nat) :
    nameOK s input → goodKeys msg →
      (∀ m ∈ (feed s msg input).1, goodKeys m) ∧
      goodState (feed s msg input).2.1 ∧ goodKeys (feed s msg input).2.2 := by
  induction s, msg, input using feed.induct with
  | case1 msg name buf strip =>
      intro hs hk
      exact ⟨by simp [feed], by simpa [feed, goodState] using hs, by simpa [feed] using hk⟩
  | case2 msg s hs2 =>
      intro hs hk
      refine ⟨by rw [feed_nil_out]; simp, ?_, by rw [feed_nil_msg]; exact hk⟩
      cases s with
      | fieldName buf =>
          rcases hs with h | ⟨ch, rest, habs, -⟩
          · simpa [feed, goodState] using h
          · exact absurd habs (by simp)
      | fieldValue name buf strip => exact absurd rfl (hs2 name buf strip)
      | fieldStart => simp [feed, goodState]
      | skipComment => simp [feed, goodState]
      | skipLF => simp [feed, goodState]
  | case3 msg ch rest h ih =>
      intro _ hk
      rw [show feed .fieldStart msg (ch :: rest) = feed .skipComment msg rest by
        simp [feed, h]]
      exact ih (by simp [nameOK]) hk
  | case4 msg ch rest h1 h2 next ih =>
      intro _ hk
      have hnext : nameOK (if ch == CR then PState.skipLF else PState.fieldStart) rest := by
        split <;> simp [nameOK]
      have hrec := ih hnext (by simp [goodKeys, msgKeys])
      rw [show feed .fieldStart msg (ch :: rest) =
          ((if msg = [] then [] else [msg]) ++
            (feed (if ch == CR then PState.skipLF else PState.fieldStart) [] rest).1,
           (feed (if ch == CR then PState.skipLF else PState.fieldStart) [] rest).2) by
        simp [feed, h1, h2]]
      refine ⟨?_, hrec.2.1, hrec.2.2⟩
      intro m hm
      rcases List.mem_append.mp hm with hm1 | hm1
      · by_cases hmsg : msg = []
        · simp [hmsg] at hm1
        · rw [show m = msg by simpa [hmsg] using hm1]; exact hk
      · exact hrec.1 m hm1
  | case5 msg ch rest h1 h2 ih =>
      intro _ hk
      rw [show feed .fieldStart msg (ch :: rest) = feed (.fieldName []) msg (ch :: rest) by
        simp [feed, h1, h2]]
      refine ih (Or.inr ⟨ch, rest, rfl, ?_⟩) hk
      exact notNameChar_of (by simpa using h1) (by simpa using h2)
  | case6 msg buf ch rest h ih =>
      intro hs hk
      have hbuf : buf ≠ [] := by
        rcases hs with hb | ⟨ch', rest', heq, hnc⟩
        · exact hb
        · exfalso
          injection heq with he1 he2
          subst he1
          simp [notNameChar, h] at hnc
      rw [show feed (.fieldName buf) msg (ch :: rest) = feed (.fieldValue buf [] true) msg rest by
        simp [feed, h]]
      exact ih (by simpa [nameOK] using hbuf) hk
  | case7 msg buf ch rest h1 h2 next ih =>
      intro hs hk
      have hbuf : buf ≠ [] := by
        rcases hs with hb | ⟨ch', rest', heq, hnc⟩
        · exact hb
        · exfalso
          injection heq with he1 he2
          subst he1
          obtain ⟨-, hcr, hlf⟩ := notNameChar_false hnc
          simp [lineEndChar, hcr, hlf] at h2
      rw [show feed (.fieldName buf) msg (ch :: rest) =
          feed (if ch == CR then PState.skipLF else PState.fieldStart) (setField msg buf []) rest by
        simp [feed, h1, h2]]
      have hnext : nameOK (if ch == CR then PState.skipLF else PState.fieldStart) rest := by
        split <;> simp [nameOK]
      exact ih hnext (goodKeys_setField msg buf [] hk hbuf)
  | case8 msg buf ch rest h1 h2 ih =>
      intro _ hk
      rw [show feed (.fieldName buf) msg (ch :: rest) = feed (.fieldName (buf ++ [ch])) msg rest by
        simp [feed, h1, h2]]
      exact ih (Or.inl (by simp)) hk
  | case9 msg name buf strip ch rest h next ih =>
      intro hs hk
      rw [show feed (.fieldValue name buf strip) msg (ch :: rest) =
          feed (if ch == CR then PState.skipLF else PState.fieldStart) (assignField msg name buf) rest by
        simp [feed, h]]
      have hnext : nameOK (if ch == CR then PState.skipLF else PState.fieldStart) rest := by
        split <;> simp [nameOK]
      exact ih hnext (goodKeys_assignField msg name buf hk hs)
  | case10 msg name buf strip ch rest h1 h2 ih =>
      intro hs hk
      rw [show feed (.fieldValue name buf strip) msg (ch :: rest) =
          feed (.fieldValue name buf false) msg rest by
        simp [feed, h1, h2]]
      exact ih (by simpa [nameOK] using hs) hk
  | case11 msg name buf strip ch rest h1 h2 ih =>
      intro hs hk
      rw [show feed (.fieldValue name buf strip) msg (ch :: rest) =
          feed (.fieldValue name (buf ++ [ch]) false) msg rest by
        simp [feed, h1, h2]]
      exact ih (by simpa [nameOK] using hs) hk
  | case12 msg ch rest h1 h2 ih =>
      intro _ hk
      rw [show feed .skipComment msg (ch :: rest) = feed .fieldStart msg (ch :: rest) by
        simp [feed, h1, h2]]
      exact ih (by simp [nameOK]) hk
  | case13 msg ch rest h1 h2 ih =>
      intro _ hk
      rw [show feed .skipComment msg (ch :: rest) = feed .skipLF msg (ch :: rest) by
        simp [feed, h1, h2]]
      exact ih (by simp [nameOK]) hk
  | case14 msg ch rest h1 ih =>
      intro _ hk
      rw [show feed .skipComment msg (ch :: rest) = feed .skipComment msg rest by
        simp [feed, h1]]
      exact ih (by simp [nameOK]) hk
  | case15 msg ch rest h1 ih =>
      intro _ hk
      rw [show feed .skipLF msg (ch :: rest) = feed .fieldStart msg rest by
        simp [feed, h1]]
      exact ih (by simp [nameOK]) hk
  | case16 msg ch rest h1 ih =>
      intro _ hk
      rw [show feed .skipLF msg (ch :: rest) = feed .fieldStart msg (ch :: rest) by
        simp [feed, h1]]
      exact ih (by simp [nameOK]) hk

/-! ### Session-level invariants and frame properties -/

theorem feed_out_ne_nil (s : PState) (msg : Message) (input : List Nat) :
    ∀ m ∈ (feed s msg input).1, m ≠ [] := by
  induction s, msg, input using feed.induct with
  | case1 msg name buf strip => simp [feed]
  | case2 msg s hs => rw [feed_nil_out]; simp
  | case3 msg ch rest h ih =>
      intro m hm
      rw [show feed .fieldStart msg (ch :: rest) = feed .skipComment msg rest by
        simp [feed, h]] at hm
      exact ih m hm
  | case4 msg ch rest h1 h2 next ih =>
      intro m hm
      rw [show feed .fieldStart msg (ch :: rest) =
          ((if msg = [] then [] else [msg]) ++
            (feed (if ch == CR then PState.skipLF else PState.fieldStart) [] rest).1,
           (feed (if ch == CR then PState.skipLF else PState.fieldStart) [] rest).2) by
        simp [feed, h1, h2]] at hm
      rcases List.mem_append.mp hm with hm1 | hm1
      · by_cases hmsg : msg = []
        · simp [hmsg] at hm1
        · rw [show m = msg by simpa [hmsg] using hm1]; exact hmsg
      · exact ih m hm1
  | case5 msg ch rest h1 h2 ih =>
      intro m hm
      rw [show feed .fieldStart msg (ch :: rest) = feed (.fieldName []) msg (ch :: rest) by
        simp [feed, h1, h2]] at hm
      exact ih m hm
  | case6 msg buf ch rest h ih =>
      intro m hm
      rw [show feed (.fieldName buf) msg (ch :: rest) = feed (.fieldValue buf [] true) msg rest by
        simp [feed, h]] at hm
      exact ih m hm
  | case7 msg buf ch rest h1 h2 next ih =>
      intro m hm
      rw [show feed (.fieldName buf) msg (ch :: rest) =
          feed (if ch == CR then PState.skipLF else PState.fieldStart) (setField msg buf []) rest by
        simp [feed, h1, h2]] at hm
      exact ih m hm
  | case8 msg buf ch rest h1 h2 ih =>
      intro m hm
      rw [show feed (.fieldName buf) msg (ch :: rest) = feed (.fieldName (buf ++ [ch])) msg rest by
        simp [feed, h1, h2]] at hm
      exact ih m hm
  | case9 msg name buf strip ch rest h next ih =>
      intro m hm
      rw [show feed (.fieldValue name buf strip) msg (ch :: rest) =
          feed (if ch == CR then PState.skipLF else PState.fieldStart) (assignField msg name buf) rest by
        simp [feed, h]] at hm
      exact ih m hm
  | case10 msg name buf strip ch rest h1 h2 ih =>
      intro m hm
      rw [show feed (.fieldValue name buf strip) msg (ch :: rest) =
          feed (.fieldValue name buf false) msg rest by simp [feed, h1, h2]] at hm
      exact ih m hm
  | case11 msg name buf strip ch rest h1 h2 ih =>
      intro m hm
      rw [show feed (.fieldValue name buf strip) msg (ch :: rest) =
          feed (.fieldValue name (buf ++ [ch]) false) msg rest by simp [feed, h1, h2]] at hm
      exact ih m hm
  | case12 msg ch rest h1 h2 ih =>
      intro m hm
      rw [show feed .skipComment msg (ch :: rest) = feed .fieldStart msg (ch :: rest) by
        simp [feed, h1, h2]] at hm
      exact ih m hm
  | case13 msg ch rest h1 h2 ih =>
      intro m hm
      rw [show feed .skipComment msg (ch :: rest) = feed .skipLF msg (ch :: rest) by
        simp [feed, h1, h2]] at hm
      exact ih m hm
  | case14 msg ch rest h1 ih =>
      intro m hm
      rw [show feed .skipComment msg (ch :: rest) = feed .skipComment msg rest by
        simp [feed, h1]] at hm
      exact ih m hm
  | case15 msg ch rest h1 ih =>
      intro m hm
      rw [show feed .skipLF msg (ch :: rest) = feed .fieldStart msg rest by
        simp [feed, h1]] at hm
      exact ih m hm
  | case16 msg ch rest h1 ih =>
      intro m hm
      rw [show feed .skipLF msg (ch :: rest) = feed .fieldStart msg (ch :: rest) by
        simp [feed, h1]] at hm
      exact ih m hm

theorem nameOK_of_goodState (s : PState) (input : List Nat) (h : goodState s) :
    nameOK s input := by
  cases s with
  | fieldName buf => exact Or.inl h
  | fieldValue name buf strip => exact h
  | fieldStart => trivial
  | skipComment => trivial
  | skipLF => trivial

theorem feedChunks_out_ne_nil (cs : List (List Nat)) :
    ∀ (s : PState) (msg : Message), ∀ m ∈ (feedChunks s msg cs).1, m ≠ [] := by
  induction cs with
  | nil => intro s msg m hm; simp [feedChunks] at hm
  | cons c cs ih =>
      intro s msg m hm
      simp only [feedChunks] at hm
      rcases List.mem_append.mp hm with h | h
      · exact feed_out_ne_nil s msg c m h
      · exact ih (feed s msg c).2.1 (feed s msg c).2.2 m h

theorem feedChunks_good (cs : List (List Nat)) :
    ∀ (s : PState) (msg : Message), goodState s → goodKeys msg →
      (∀ m ∈ (feedChunks s msg cs).1, goodKeys m) ∧
      goodState (feedChunks s msg cs).2.1 ∧ goodKeys (feedChunks s msg cs).2.2 := by
  induction cs with
  | nil =>
      intro s msg hs hk
      exact ⟨by simp [feedChunks], by simpa [feedChunks] using hs, by simpa [feedChunks] using hk⟩
  | cons c cs ih =>
      intro s msg hs hk
      have h1 := feed_good s msg c (nameOK_of_goodState s c hs) hk
      have h2 := ih (feed s msg c).2.1 (feed s msg c).2.2 h1.2.1 h1.2.2
      refine ⟨?_, ?_, ?_⟩
      · intro m hm
        simp only [feedChunks] at hm
        rcases List.mem_append.mp hm with h | h
        · exact h1.1 m h
        · exact h2.1 m h
      · simpa [feedChunks] using h2.2.1
      · simpa [feedChunks] using h2.2.2

theorem feedChunks_append (cs ds : List (List Nat)) :
    ∀ (s : PState) (msg : Message),
      (feedChunks s msg (cs ++ ds)).1 =
        (feedChunks s msg cs).1 ++
          (feedChunks (feedChunks s msg cs).2.1 (feedChunks s msg cs).2.2 ds).1 := by
  induction cs with
  | nil => intro s msg; simp [feedChunks]
  | cons c cs ih =>
      intro s msg
      simp only [List.cons_append, feedChunks, List.append_eq]
      rw [ih]
      simp [List.append_assoc]

/-! ### Claims C7, C9, C10 -/

/-- C7: a session driven to end-of-stream always finishes with
`SERVER_CLOSED`; every message handed to the consumer has at least one
field (`getMessages` drops empty messages, and the only emission point is
the blank-line branch of `fieldStart`); and a record whose lines were all
consumed but that was never terminated by a blank line is not emitted at
end-of-stream. -/
theorem claim7_no_emit_on_eof :
    (∀ chunks : List (List Nat), (getMessages chunks).2 = .SERVER_CLOSED ∧
      ∀ m ∈ (getMessages chunks).1, m ≠ []) ∧
    (∀ fields : List (Bytes × Bytes), (∀ f ∈ fields, wfName f.1 ∧ wfValue f.2) →
      getMessages [bodyOf [LF] fields] = ([], .SERVER_CLOSED)) := by
  constructor
  · intro chunks
    exact ⟨rfl, fun m hm => feedChunks_out_ne_nil chunks .fieldStart [] m hm⟩
  · intro fields hf
    have h := feed_body [LF] (by simp) fields [] [] hf (fun hc => absurd hc (by decide))
    have hout : (feed .fieldStart [] (bodyOf [LF] fields)).1 = [] := by
      rw [show bodyOf [LF] fields = bodyOf [LF] fields ++ [] from (List.append_nil _).symm,
        h, feed_nil_out]
    rw [getMessages_single, hout]

/-- Witness for C7: an open record (`data: a`, `id: 1`, no blank line)
yields no message and the session ends `SERVER_CLOSED`. -/
theorem claim7_witness :
    (getMessages [bytes "data: a\nid: 1\n"]).1 = [] ∧
    (getMessages [bytes "data: a\nid: 1\n"]).2 = .SERVER_CLOSED := by
  have h2 := claim7_no_emit_on_eof.2 [(bytes "data", bytes "a"), (bytes "id", bytes "1")]
    (by decide)
  constructor
  · rw [show bytes "data: a\nid: 1\n" =
        bodyOf [LF] [(bytes "data", bytes "a"), (bytes "id", bytes "1")] by decide]
    rw [h2]
  · exact (claim7_no_emit_on_eof.1 [bytes "data: a\nid: 1\n"]).1

/-- C9: messages already yielded are never modified afterwards: however
the session is extended with further chunks, the previously produced
message list is preserved verbatim as a prefix, and only new messages are
appended (each emission hands off the accumulated message and restarts
from the empty one). -/
theorem claim9_frame (cs ds : List (List Nat)) :
    ∃ tail, (getMessages (cs ++ ds)).1 = (getMessages cs).1 ++ tail := by
  refine ⟨(feedChunks (feedChunks .fieldStart [] cs).2.1 (feedChunks .fieldStart [] cs).2.2 ds).1, ?_⟩
  exact feedChunks_append cs ds .fieldStart []

/-- C10: every key of every message surfaced to the consumer is a
non-empty byte string: a `:` at record start opens a comment instead of a
field, a line end at record start is a blank line, and the `fieldName`
state is only ever entered on a name byte. -/
theorem claim10_keys_nonempty (chunks : List (List Nat)) :
    ∀ m ∈ (getMessages chunks).1, ∀ k ∈ msgKeys m, k ≠ [] := by
  intro m hm k hk
  have h := feedChunks_good chunks .fieldStart [] trivial
    (by intro k hk2; simp [msgKeys] at hk2)
  exact h.1 m hm k hk

/-- Witness for C10 on the stream `data:x`. -/
theorem claim10_witness :
    [(bytes "data", bytes "x\n")] ∈ (getMessages [bytes "data:x\n\n"]).1 ∧
    bytes "data" ∈ msgKeys [(bytes "data", bytes "x\n")] ∧ bytes "data" ≠ [] := by
  have hrun : (getMessages [bytes "data:x\n\n"]).1 = [[(bytes "data", bytes "x\n")]] := by
    simp [getMessages, feedChunks, bytes, feed, lineEndChar, notNameChar, COLON, CR, LF, SPACE,
      assignField, dataName, setField, getField]
  have hmem : [(bytes "data", bytes "x\n")] ∈ (getMessages [bytes "data:x\n\n"]).1 := by
    rw [hrun]; simp
  exact ⟨hmem, by decide,
    claim10_keys_nonempty [bytes "data:x\n\n"] _ hmem (bytes "data") (by decide)⟩

/-! ### Claims C1 and C4: the resumed leading-space strip -/

/-- C1 (code bug): chunk-boundary invariance fails.  The stream
`data:  x` (two spaces) fed whole keeps one space, but split as
`"data: " / " x\n\n"` the strip test `buffer === ''` is re-evaluated on
the second fragment and a second space is removed. -/
theorem claim1_split_divergence :
    bytes "data: " ++ bytes " x\n\n" = bytes "data:  x\n\n" ∧
    getMessages [bytes "data:  x\n\n"] = ([[(bytes "data", bytes " x\n")]], .SERVER_CLOSED) ∧
    getMessages [bytes "data: ", bytes " x\n\n"] = ([[(bytes "data", bytes "x\n")]], .SERVER_CLOSED) ∧
    getMessages [bytes "data: ", bytes " x\n\n"] ≠ getMessages [bytes "data:  x\n\n"] := by
  refine ⟨by decide, ?_, ?_, ?_⟩
  · simp [getMessages, feedChunks, bytes, feed, lineEndChar, notNameChar, COLON, CR, LF, SPACE,
      assignField, dataName, setField, getField]
  · simp [getMessages, feedChunks, bytes, feed, lineEndChar, notNameChar, COLON, CR, LF, SPACE,
      assignField, dataName, setField, getField]
  · intro h
    have h1 : getMessages [bytes "data:  x\n\n"] = ([[(bytes "data", bytes " x\n")]], .SERVER_CLOSED) := by
      simp [getMessages, feedChunks, bytes, feed, lineEndChar, notNameChar, COLON, CR, LF, SPACE,
        assignField, dataName, setField, getField]
    have h2 : getMessages [bytes "data: ", bytes " x\n\n"] = ([[(bytes "data", bytes "x\n")]], .SERVER_CLOSED) := by
      simp [getMessages, feedChunks, bytes, feed, lineEndChar, notNameChar, COLON, CR, LF, SPACE,
        assignField, dataName, setField, getField]
    rw [h1, h2] at h
    exact absurd h (by decide)

/-- C4 (code bug): exactly one leading space is stripped when the value
arrives in one chunk (`data: value` gives `value\n`), but when a value
beginning with two spaces is split right after the first space, the
resumed scan strips a second space. -/
theorem claim4_strip_divergence :
    getMessages [bytes "data: value\n\n"] = ([[(bytes "data", bytes "value\n")]], .SERVER_CLOSED) ∧
    bytes "data: " ++ bytes " a\n\n" = bytes "data:  a\n\n" ∧
    getMessages [bytes "data:  a\n\n"] = ([[(bytes "data", bytes " a\n")]], .SERVER_CLOSED) ∧
    getMessages [bytes "data: ", bytes " a\n\n"] = ([[(bytes "data", bytes "a\n")]], .SERVER_CLOSED) := by
  refine ⟨?_, by decide, ?_, ?_⟩ <;>
    simp [getMessages, feedChunks, bytes, feed, lineEndChar, notNameChar, COLON, CR, LF, SPACE,
      assignField, dataName, setField, getField]

/-! ### Claim C8: close() granularity -/

/-- C8 (counterexample): when two records arrive in one chunk and the
consumer closes right after pulling the first message, the next pull does
not return `CLIENT_CLOSED` — the second message of the chunk is still
produced, because `!this.clientClosed` is only tested at chunk
boundaries. -/
theorem claim8_counterexample :
    getMessagesWithClose [bytes "id:1\n\nid:2\n\n"] 1 =
      ([[(bytes "id", bytes "1")], [(bytes "id", bytes "2")]], .CLIENT_CLOSED) ∧
    1 < (getMessagesWithClose [bytes "id:1\n\nid:2\n\n"] 1).1.length := by
  have h : getMessagesWithClose [bytes "id:1\n\nid:2\n\n"] 1 =
      ([[(bytes "id", bytes "1")], [(bytes "id", bytes "2")]], .CLIENT_CLOSED) := by
    simp [getMessagesWithClose, runCloseAux, getMessages, feedChunks, bytes, feed, lineEndChar,
      notNameChar, COLON, CR, LF, SPACE, assignField, dataName, setField, getField]
  exact ⟨h, by rw [h]; simp⟩

/-- While the close threshold has not been reached, `runCloseAux` follows
the plain drive loop and stops with `CLIENT_CLOSED` at the end of the
chunk in which the `k`-th message was produced; if some chunk boundary
falls exactly after the `k`-th message, the surfaced messages are exactly
the first `k` of the uncancelled session. -/
theorem runCloseAux_spec (k : Nat) :
    ∀ (cs : List (List Nat)) (cnt : Nat) (s : PState) (msg : Message),
      cnt < k →
      (∃ j, cnt + (feedChunks s msg (cs.take j)).1.length = k) →
      runCloseAux k cnt s msg cs =
        ((feedChunks s msg cs).1.take (k - cnt), .CLIENT_CLOSED) := by
  intro cs
  induction cs with
  | nil =>
      intro cnt s msg hk hex
      exfalso
      obtain ⟨j, hj⟩ := hex
      simp [feedChunks] at hj
      omega
  | cons c cs ih =>
      intro cnt s msg hk hex
      by_cases hcase : k ≤ cnt + (feed s msg c).1.length
      · have hkeq : k = cnt + (feed s msg c).1.length := by
          obtain ⟨j, hj⟩ := hex
          cases j with
          | zero => simp [feedChunks] at hj; omega
          | succ j' =>
              rw [List.take_succ_cons] at hj
              simp only [feedChunks] at hj
              rw [List.length_append] at hj
              omega
        rw [show runCloseAux k cnt s msg (c :: cs) = ((feed s msg c).1, .CLIENT_CLOSED) by
          simp [runCloseAux, hcase]]
        simp only [feedChunks]
        congr 1
        rw [List.take_append_eq_append_take]
        rw [show k - cnt = (feed s msg c).1.length by omega]
        simp
      · push_neg at hcase
        have hex' : ∃ j, (cnt + (feed s msg c).1.length) +
            (feedChunks (feed s msg c).2.1 (feed s msg c).2.2 (cs.take j)).1.length = k := by
          obtain ⟨j, hj⟩ := hex
          cases j with
          | zero => simp [feedChunks] at hj; omega
          | succ j' =>
              refine ⟨j', ?_⟩
              rw [List.take_succ_cons] at hj
              simp only [feedChunks] at hj
              rw [List.length_append] at hj
              omega
        have hrec := ih (cnt + (feed s msg c).1.length) (feed s msg c).2.1 (feed s msg c).2.2
          (by omega) hex'
        have hnot : ¬ k ≤ cnt + (feed s msg c).1.length := by omega
        rw [show runCloseAux k cnt s msg (c :: cs) =
            ((feed s msg c).1 ++ (runCloseAux k (cnt + (feed s msg c).1.length)
                (feed s msg c).2.1 (feed s msg c).2.2 cs).1,
             (runCloseAux k (cnt + (feed s msg c).1.length)
                (feed s msg c).2.1 (feed s msg c).2.2 cs).2) by
          simp [runCloseAux, hnot]]
        rw [hrec]
        simp only [feedChunks]
        congr 1
        rw [List.take_append_eq_append_take]
        rw [List.take_of_length_le (by omega : (feed s msg c).1.length ≤ k - cnt)]
        rw [show k - cnt - (feed s msg c).1.length = k - (cnt + (feed s msg c).1.length) by omega]

/-- C8 (amended): the close requested right after the `k`-th message takes
effect at the next chunk boundary.  When the `k`-th message is the last
message of its chunk (some chunk boundary yields exactly `k` messages),
the session surfaces exactly the first `k` messages of the uncancelled
run and then finishes with `CLIENT_CLOSED`; messages of chunks not yet
read are never produced. -/
theorem claim8_amended (chunks : List (List Nat)) (k : Nat) (hk : 1 ≤ k)
    (hex : ∃ j, (getMessages (chunks.take j)).1.length = k) :
    getMessagesWithClose chunks k = ((getMessages chunks).1.take k, .CLIENT_CLOSED) := by
  unfold getMessagesWithClose
  rw [if_neg (by omega)]
  have h := runCloseAux_spec k chunks 0 .fieldStart [] (by omega)
    (by simpa [getMessages] using hex)
  rw [h]
  simp [getMessages]

/-- Witness for the amended C8: two one-record chunks, close after the
first message. -/
theorem claim8_witness :
    (getMessages ([bytes "id:1\n\n", bytes "id:2\n\n"].take 1)).1.length = 1 ∧
    getMessagesWithClose [bytes "id:1\n\n", bytes "id:2\n\n"] 1 =
      ((getMessages [bytes "id:1\n\n", bytes "id:2\n\n"]).1.take 1, .CLIENT_CLOSED) := by
  refine ⟨?_, claim8_amended _ 1 (le_refl 1) ⟨1, ?_⟩⟩ <;>
    simp [getMessages, feedChunks, bytes, feed, lineEndChar, notNameChar, COLON, CR, LF, SPACE,
      assignField, dataName, setField, getField]

/-! ### Chunk-boundary invariance for a single record (claim C5) -/

theorem oneMsg_ne_nil (n w : Bytes) : oneMsg n w ≠ [] := assignField_ne_nil [] n w

/-- Scanning the value part of `oneRecord n w` from any suspension point,
with one arbitrary chunk: the parser lands on the suspension point that
many bytes further, emitting the message exactly when the chunk reaches
the end of the record.  Requires that the value does not start with a
space (the strip then never fires, so resumption is position-determined). -/
theorem auxVal (n w : Bytes) (hw : wfValue w) (hsp : w.head? ≠ some SPACE) :
    ∀ (c : List Nat), ∀ (w1 w2 : Bytes) (rest : List Nat),
      w1 ++ w2 = w → c ++ rest = w2 ++ [LF, LF] →
      ∃ p' : Pos5, okPos n w p' ∧ sfxPos w p' = rest ∧
        feed (.fieldValue n w1 w1.isEmpty) [] c =
          ((if rest = [] ∧ c ≠ [] then [oneMsg n w] else []), stPos n p', msPos n w p') := by
  intro c
  induction c with
  | nil =>
      intro w1 w2 rest hw12 hc
      refine ⟨.value w1 w2, hw12, by simpa [sfxPos] using hc.symm, ?_⟩
      simp [feed, stPos, msPos]
  | cons ch c' ih =>
      intro w1 w2 rest hw12 hc
      cases w2 with
      | nil =>
          rw [List.cons_append] at hc
          injection hc with hch hc2
          subst hch
          have hw1 : w1 = w := by simpa using hw12
          subst hw1
          rw [show feed (.fieldValue n w1 w1.isEmpty) [] (LF :: c') =
                feed .fieldStart (oneMsg n w1) c' by
              simp [feed, lineEndChar, LF, CR, oneMsg]]
          cases c' with
          | nil =>
              simp only [List.nil_append] at hc2
              subst hc2
              refine ⟨.afterLine1, trivial, rfl, ?_⟩
              simp [feed, stPos, msPos]
          | cons ch2 c'' =>
              rw [List.cons_append] at hc2
              injection hc2 with hch2 hc3
              subst hch2
              obtain ⟨hc'', hrest⟩ := List.append_eq_nil.mp hc3
              subst hc''
              subst hrest
              refine ⟨.atEnd, trivial, rfl, ?_⟩
              simp [feed, lineEndChar, COLON, LF, CR, stPos, msPos, oneMsg_ne_nil]
      | cons y w2' =>
          rw [List.cons_append, List.cons_append] at hc
          injection hc with hch hc2
          subst hch
          have hy : lineEndChar ch = false := hw ch (by rw [← hw12]; simp)
          have hstep : feed (.fieldValue n w1 w1.isEmpty) [] (ch :: c') =
              feed (.fieldValue n (w1 ++ [ch]) (w1 ++ [ch]).isEmpty) [] c' := by
            cases w1 with
            | nil =>
                have hhead : w.head? = some ch := by rw [← hw12]; simp
                have hyS : (ch == SPACE) = false := by
                  have hne : ch ≠ SPACE := fun h => hsp (by rw [hhead, h])
                  simp [hne]
                simp [feed, hy, hyS]
            | cons a w1' => simp [feed, hy]
          rw [hstep]
          obtain ⟨p', h1, h2, h3⟩ := ih (w1 ++ [ch]) w2' rest (by rw [← hw12]; simp) hc2
          refine ⟨p', h1, h2, ?_⟩
          rw [h3]
          by_cases hrest : rest = []
          · have hc'ne : c' ≠ [] := by
              intro h0
              rw [h0, hrest] at hc2
              exact absurd hc2.symm (by simp)
            simp [hrest, hc'ne]
          · simp [hrest]

theorem out_if_eq (msgs : List Message) {rest : List Nat} (ch : Nat) {c' : List Nat}
    (h : rest = [] → c' ≠ []) :
    (if rest = [] ∧ c' ≠ [] then msgs else []) =
      (if rest = [] ∧ ch :: c' ≠ [] then msgs else []) := by
  by_cases hrest : rest = []
  · simp [hrest, h hrest]
  · simp [hrest]

/-- Scanning the name part of `oneRecord n w` from any suspension point,
with one arbitrary chunk. -/
theorem auxName (n w : Bytes) (hn : wfName n) (hw : wfValue w) (hsp : w.head? ≠ some SPACE) :
    ∀ (c : List Nat), ∀ (buf n2 : Bytes) (rest : List Nat),
      buf ++ n2 = n → (buf = [] → c ≠ []) → c ++ rest = n2 ++ [COLON] ++ w ++ [LF, LF] →
      ∃ p' : Pos5, okPos n w p' ∧ sfxPos w p' = rest ∧
        feed (.fieldName buf) [] c =
          ((if rest = [] ∧ c ≠ [] then [oneMsg n w] else []), stPos n p', msPos n w p') := by
  intro c
  induction c with
  | nil =>
      intro buf n2 rest hbn hbc hc
      have hbuf : buf ≠ [] := fun h => (hbc h) rfl
      obtain ⟨a, buf', rfl⟩ : ∃ a buf', buf = a :: buf' := by
        cases buf with
        | nil => exact absurd rfl hbuf
        | cons a t => exact ⟨a, t, rfl⟩
      refine ⟨.name (a :: buf') n2, hbn, by simpa [sfxPos] using hc.symm, ?_⟩
      simp [feed, stPos, msPos]
  | cons ch c' ih =>
      intro buf n2 rest hbn hbc hc
      cases n2 with
      | nil =>
          simp only [List.nil_append, List.singleton_append, List.cons_append] at hc
          injection hc with hch hc2
          subst hch
          have hbn' : buf = n := by simpa using hbn
          subst hbn'
          rw [show feed (.fieldName buf) [] (COLON :: c') =
                feed (.fieldValue buf [] List.nil.isEmpty) [] c' by simp [feed]]
          obtain ⟨p', h1, h2, h3⟩ := auxVal buf w hw hsp c' [] w rest (by simp) hc2
          refine ⟨p', h1, h2, ?_⟩
          rw [h3]
          refine congrArg (fun o => (o, stPos buf p', msPos buf w p')) ?_
          refine out_if_eq [oneMsg buf w] COLON ?_
          intro h0
          intro hc0
          rw [hc0, h0] at hc2
          exact absurd hc2.symm (by simp)
      | cons m n2' =>
          rw [List.cons_append, List.cons_append] at hc
          injection hc with hch hc2
          subst hch
          have hm : notNameChar ch = false := hn.2 ch (by rw [← hbn]; simp)
          obtain ⟨hcolon, hcr, hlf⟩ := notNameChar_false hm
          have hle : lineEndChar ch = false := by simp [lineEndChar, hcr, hlf]
          rw [show feed (.fieldName buf) [] (ch :: c') =
                feed (.fieldName (buf ++ [ch])) [] c' by simp [feed, hcolon, hle]]
          obtain ⟨p', h1, h2, h3⟩ := ih (buf ++ [ch]) n2' rest (by rw [← hbn]; simp) (by simp) hc2
          refine ⟨p', h1, h2, ?_⟩
          rw [h3]
          refine congrArg (fun o => (o, stPos n p', msPos n w p')) ?_
          refine out_if_eq [oneMsg n w] ch ?_
          intro h0
          intro hc0
          rw [hc0, h0] at hc2
          exact absurd hc2.symm (by simp)

/-- One arbitrary chunk moves the parser from any suspension point of
`oneRecord n w` to the suspension point `c.length` bytes further; the
message is emitted exactly when the chunk reaches the record's end. -/
theorem chunkStep (n w : Bytes) (hn : wfName n) (hw : wfValue w) (hsp : w.head? ≠ some SPACE)
    (p : Pos5) (c rest : List Nat) (hok : okPos n w p) (hc : c ++ rest = sfxPos w p) :
    ∃ p' : Pos5, okPos n w p' ∧ sfxPos w p' = rest ∧
      feed (stPos n p) (msPos n w p) c =
        ((if rest = [] ∧ c ≠ [] then [oneMsg n w] else []), stPos n p', msPos n w p') := by
  cases p with
  | name n1 n2 =>
      cases n1 with
      | nil =>
          simp only [stPos, msPos, sfxPos] at hc ⊢
          cases c with
          | nil =>
              refine ⟨.name [] n2, hok, by simpa [sfxPos] using hc.symm, ?_⟩
              simp [feed, stPos, msPos, sfxPos]
          | cons ch c' =>
              have hn2 : n2 = n := by simpa [okPos] using hok
              obtain ⟨nh, nt, hshape⟩ : ∃ nh nt, n2 = nh :: nt := by
                rw [hn2]
                cases hnn : n with
                | nil => exact absurd hnn hn.1
                | cons x t => exact ⟨x, t, rfl⟩
              have hch : ch = nh := by
                have hcc := hc
                rw [hshape, List.cons_append, List.cons_append] at hcc
                injection hcc with h1 h2
              have hmem : nh ∈ n := by rw [← hn2, hshape]; simp
              have hm : notNameChar ch = false := by
                rw [hch]; exact hn.2 nh hmem
              obtain ⟨hcolon, hcr, hlf⟩ := notNameChar_false hm
              have hle : lineEndChar ch = false := by simp [lineEndChar, hcr, hlf]
              rw [show feed .fieldStart [] (ch :: c') = feed (.fieldName []) [] (ch :: c') by
                simp [feed, hcolon, hle]]
              exact auxName n w hn hw hsp (ch :: c') [] n2 rest hok (fun _ => by simp) hc
      | cons x n1' =>
          simp only [stPos, msPos, sfxPos] at hc ⊢
          exact auxName n w hn hw hsp c (x :: n1') n2 rest hok (fun h => absurd h (by simp)) hc
  | value w1 w2 =>
      simp only [stPos, msPos, sfxPos] at hc ⊢
      exact auxVal n w hw hsp c w1 w2 rest hok hc
  | afterLine1 =>
      simp only [stPos, msPos, sfxPos] at hc ⊢
      cases c with
      | nil =>
          refine ⟨.afterLine1, trivial, by simpa [sfxPos] using hc.symm, ?_⟩
          simp [feed, stPos, msPos, sfxPos]
      | cons ch c' =>
          rw [List.cons_append] at hc
          injection hc with hch hc2
          subst hch
          obtain ⟨hc', hrest⟩ := List.append_eq_nil.mp hc2
          subst hc'
          subst hrest
          refine ⟨.atEnd, trivial, rfl, ?_⟩
          simp [feed, lineEndChar, COLON, CR, LF, stPos, msPos, sfxPos, oneMsg_ne_nil]
  | atEnd =>
      simp only [stPos, msPos, sfxPos] at hc ⊢
      obtain ⟨hc0, hrest⟩ := List.append_eq_nil.mp hc
      subst hc0
      subst hrest
      refine ⟨.atEnd, trivial, rfl, ?_⟩
      simp [feed, stPos, msPos, sfxPos]

/-- Driving the parser from any suspension point of `oneRecord n w`
through an arbitrary chunking of the remaining bytes yields exactly the
one message (provided bytes remain), independently of the chunking. -/
theorem runPos (n w : Bytes) (hn : wfName n) (hw : wfValue w) (hsp : w.head? ≠ some SPACE) :
    ∀ (cs : List (List Nat)) (p : Pos5), okPos n w p → cs.flatten = sfxPos w p →
      (feedChunks (stPos n p) (msPos n w p) cs).1 =
        (if sfxPos w p = [] then [] else [oneMsg n w]) := by
  intro cs
  induction cs with
  | nil =>
      intro p hok hflat
      rw [show sfxPos w p = [] from by simpa using hflat.symm]
      simp [feedChunks]
  | cons c cs ih =>
      intro p hok hflat
      rw [List.flatten_cons] at hflat
      obtain ⟨p', h1, h2, h3⟩ := chunkStep n w hn hw hsp p c cs.flatten hok hflat
      rw [show (feedChunks (stPos n p) (msPos n w p) (c :: cs)).1 =
          (feed (stPos n p) (msPos n w p) c).1 ++
            (feedChunks (feed (stPos n p) (msPos n w p) c).2.1
              (feed (stPos n p) (msPos n w p) c).2.2 cs).1 by simp [feedChunks]]
      rw [h3]
      rw [show ((if cs.flatten = [] ∧ c ≠ [] then [oneMsg n w] else []),
            stPos n p', msPos n w p').2.1 = stPos n p' from rfl]
      rw [show ((if cs.flatten = [] ∧ c ≠ [] then [oneMsg n w] else []),
            stPos n p', msPos n w p').2.2 = msPos n w p' from rfl]
      rw [show ((if cs.flatten = [] ∧ c ≠ [] then [oneMsg n w] else []),
            stPos n p', msPos n w p').1 = (if cs.flatten = [] ∧ c ≠ [] then [oneMsg n w] else [])
            from rfl]
      rw [ih p' h1 h2.symm, h2, ← hflat]
      by_cases h4 : cs.flatten = [] <;> by_cases h5 : c = [] <;> simp [h4, h5]

/-- In the `fieldValue` state of the canonical implementation
(`src/lib/SSEResponseParser.ts`) scanning stops only at CR or LF — a `:`
inside the value is ordinary content.  For every field name, every value
`a:b` (not starting with a space) and every chunking of the single record
`name:a:b` (blank-line terminated), the parser stores the full value
`a:b` (with the `data` rule applied if the name is `data`). -/
theorem colon_in_value_invariance (n a b : Bytes) (hn : wfName n)
    (ha : wfValue a) (hb : wfValue b) (hsp : a.head? ≠ some SPACE)
    (cs : List (List Nat))
    (hcs : cs.flatten = n ++ [COLON] ++ (a ++ [COLON] ++ b) ++ [LF, LF]) :
    getMessages cs =
      ([[(n, if n = dataName then (a ++ [COLON] ++ b) ++ [LF] else a ++ [COLON] ++ b)]],
        .SERVER_CLOSED) := by
  have hw : wfValue (a ++ [COLON] ++ b) := by
    intro x hx
    rcases List.mem_append.mp hx with hx1 | hx2
    · rcases List.mem_append.mp hx1 with h | h
      · exact ha x h
      · rw [List.mem_singleton.mp h]; decide
    · exact hb x hx2
  have hsp2 : (a ++ [COLON] ++ b).head? ≠ some SPACE := by
    cases a with
    | nil => simp; decide
    | cons x t => simpa using hsp
  have hrun := runPos n (a ++ [COLON] ++ b) hn hw hsp2 cs (.name [] n)
    (by simp [okPos]) (by simpa [sfxPos] using hcs)
  simp only [stPos, msPos] at hrun
  rw [show getMessages cs = ((feedChunks .fieldStart [] cs).1, .SERVER_CLOSED) from rfl]
  rw [hrun]
  rw [if_neg (by simp [sfxPos])]
  rw [show oneMsg n (a ++ [COLON] ++ b) =
      [(n, if n = dataName then (a ++ [COLON] ++ b) ++ [LF] else (a ++ [COLON] ++ b))] from by
    rw [oneMsg, assignField_nil]]

/-- The record `data:a:b` cut into single-byte chunks produces
`data = "a:b\n"` under the canonical implementation. -/
theorem colon_in_value_example :
    wfName (bytes "data") ∧ wfValue (bytes "a") ∧ wfValue (bytes "b") ∧
    (bytes "a").head? ≠ some SPACE ∧
    ((bytes "data:a:b\n\n").map (fun x => [x])).flatten =
      bytes "data" ++ [COLON] ++ (bytes "a" ++ [COLON] ++ bytes "b") ++ [LF, LF] ∧
    getMessages ((bytes "data:a:b\n\n").map (fun x => [x])) =
      ([[(bytes "data", bytes "a:b\n")]], .SERVER_CLOSED) := by
  refine ⟨by decide, by decide, by decide, by decide, by decide, ?_⟩
  rw [colon_in_value_invariance (bytes "data") (bytes "a") (bytes "b") (by decide) (by decide)
    (by decide) (by decide) _ (by decide)]
  decide


/-- C5 (code bug in the `part_002` variant): the claim also cites the
repository's other compiled parser copy `src/unnamed/part_002`, whose
`fieldValue` scans with `notNameChar` — there the value scan stops at `:`
too, so the record `data:a:b` stores `data = "a\n"` and the leftover `b`
is re-parsed as a field name with an empty value.  The canonical
implementation (`src/lib/SSEResponseParser.ts`, likewise
`dist/SSEResponseParser.js`) scans with `lineEndChar` and stores
`data = "a:b\n"`, as the claim states; the two variants diverge on this
input. -/
theorem claim5_variant_divergence :
    getMessages [bytes "data:a:b\n\n"] =
      ([[(bytes "data", bytes "a:b\n")]], .SERVER_CLOSED) ∧
    getMessagesV [bytes "data:a:b\n\n"] =
      ([[(bytes "data", bytes "a\n"), (bytes "b", [])]], .SERVER_CLOSED) ∧
    getMessagesV [bytes "data:a:b\n\n"] ≠ getMessages [bytes "data:a:b\n\n"] := by
  have h1 : getMessages [bytes "data:a:b\n\n"] =
      ([[(bytes "data", bytes "a:b\n")]], .SERVER_CLOSED) := by
    simp [getMessages, feedChunks, bytes, feed, lineEndChar, notNameChar, COLON, CR, LF, SPACE,
      assignField, dataName, setField, getField]
  have h2 : getMessagesV [bytes "data:a:b\n\n"] =
      ([[(bytes "data", bytes "a\n"), (bytes "b", [])]], .SERVER_CLOSED) := by
    simp [getMessagesV, feedChunksV, bytes, feedV, lineEndChar, notNameChar, COLON, CR, LF, SPACE,
      assignField, dataName, setField, getField]
  refine ⟨h1, h2, ?_⟩
  rw [h1, h2]
  decide

end SSE
